import Mathlib

/-!
Verification development for a tic-tac-toe application.

The repository has two variants of the game logic:
* a history-bearing variant (`Game` class): state is a list of board
  snapshots, a current step pointer, and a turn flag; `handleClick`
  truncates the history at the pointer, rejects moves on finished boards or
  occupied cells, and otherwise appends a new snapshot; `jumpTo` moves the
  pointer;
* a simpler variant (`Board` class in `index.js`): state is just the
  current squares array and the turn flag.

Both share the pure win detector `calculateWinner`.  This file embeds the
logic of both variants shallowly and proves the behavioural properties
claimed about them: the first-match semantics of the win detector, silent
rejection of invalid clicks, the success path of a move, history
truncation on branch, turn parity, the occupied-count invariant,
well-formedness of reachable states, the frame property of `jumpTo`,
absorption of finished games, and refinement of the simple variant by the
history-bearing one.
-/

namespace TicTacToe

/-- A player's mark, `'X'` or `'O'` in the source. -/
inductive Player : Type
  | X : Player
  | O : Player
deriving DecidableEq, Repr

/-- A cell of the squares array: `null` (empty) or a player's mark. -/
abbrev Cell := Option Player

/-- A board snapshot: the `squares` array (length 9 in well-formed states). -/
abbrev Board := List Cell

/-- The eight winning line index triples, in the exact order of the
`lines` array in `calculateWinner`. -/
def lines : List (Nat × Nat × Nat) :=
  [(0, 1, 2), (3, 4, 5), (6, 7, 8),
   (0, 3, 6), (1, 4, 7), (2, 5, 8),
   (0, 4, 8), (2, 4, 6)]

/-- One iteration of the loop body of `calculateWinner`: for a triple
`(a, b, c)`, return `squares[a]` when `squares[a]` is non-null and equals
`squares[b]` and `squares[c]`, else nothing.  Out-of-range access reads as
`none`, matching `undefined` being falsy. -/
def checkLine (squares : Board) (t : Nat × Nat × Nat) : Option Player :=
  if (squares.getD t.1 none).isSome ∧
      squares.getD t.1 none = squares.getD t.2.1 none ∧
      squares.getD t.1 none = squares.getD t.2.2 none then
    squares.getD t.1 none
  else
    none

/-- The loop of `calculateWinner`: scan the triples in order, returning at
the first match. -/
def calculateWinnerAux (squares : Board) : List (Nat × Nat × Nat) → Option Player
  | [] => none
  | t :: rest =>
    match checkLine squares t with
    | some p => some p
    | none => calculateWinnerAux squares rest

/-- `calculateWinner(squares)` from the source: first matching line wins,
`null` (here `none`) when no line matches. -/
def calculateWinner (squares : Board) : Option Player :=
  calculateWinnerAux squares lines

/-- The mark placed for the current turn flag: `xIsNext ? 'X' : 'O'`. -/
def mark (xIsNext : Bool) : Cell :=
  some (if xIsNext then Player.X else Player.O)

/-- The state of the history-bearing `Game` component:
`{history, stepNumber, xIsNext}`. -/
structure GameState : Type where
  history : List Board
  stepNumber : Nat
  xIsNext : Bool
deriving DecidableEq, Repr

/-- The `Game` constructor's initial state: one all-null snapshot,
step 0, X to move. -/
def initialState : GameState :=
  { history := [List.replicate 9 none], stepNumber := 0, xIsNext := true }

/-- `Game.handleClick(i)`: truncate history to `stepNumber + 1` entries,
clone the last snapshot, silently return when the board has a winner or
the cell is occupied, else place the active player's mark, append the new
snapshot, set the pointer to the truncated length, and flip the flag. -/
def handleClick (s : GameState) (i : Nat) : GameState :=
  let history := s.history.take (s.stepNumber + 1)
  let squares := history.getLast?.getD []
  if (calculateWinner squares).isSome || (squares.getD i none).isSome then
    s
  else
    { history := history ++ [squares.set i (mark s.xIsNext)],
      stepNumber := history.length,
      xIsNext := !s.xIsNext }

/-- `Game.jumpTo(step)`: set the pointer and derive the flag from the
step's parity; the history is untouched. -/
def jumpTo (s : GameState) (step : Nat) : GameState :=
  { s with stepNumber := step, xIsNext := step % 2 == 0 }

/-- The state of the simpler `Board` component in `index.js`:
`{squares, xIsNext}` with no history. -/
structure BoardState : Type where
  squares : Board
  xIsNext : Bool
deriving DecidableEq, Repr

/-- The `Board` constructor's initial state in `index.js`. -/
def initialBoardState : BoardState :=
  { squares := List.replicate 9 none, xIsNext := true }

/-- `Board.handleClick(i)` from `index.js`: same guard as the history
variant, but the new squares array simply replaces the old one. -/
def BoardState.handleClick (s : BoardState) (i : Nat) : BoardState :=
  let squares := s.squares
  if (calculateWinner squares).isSome || (squares.getD i none).isSome then
    s
  else
    { squares := squares.set i (mark s.xIsNext), xIsNext := !s.xIsNext }

/-- One user interaction on the `Game` component: a cell click with an
index in `0..8`, or a history-list click with a step inside the current
history. -/
inductive Step : GameState → GameState → Prop
  | click (s : GameState) (i : Nat) (hi : i ≤ 8) : Step s (handleClick s i)
  | jump (s : GameState) (k : Nat) (hk : k < s.history.length) : Step s (jumpTo s k)

/-- States reachable from the constructor's state by clicks and jumps. -/
def Reachable (s : GameState) : Prop :=
  Relation.ReflTransGen Step initialState s

/-- A line `(a, b, c)` is filled by `p` on `squares`: all three cells hold
the mark `p`. -/
def lineFilled (squares : Board) (t : Nat × Nat × Nat) (p : Player) : Prop :=
  squares.getD t.1 none = some p ∧
  squares.getD t.2.1 none = some p ∧
  squares.getD t.2.2 none = some p

/-- A line is complete on `squares`: filled by one of the players. -/
def lineComplete (squares : Board) (t : Nat × Nat × Nat) : Prop :=
  ∃ p, lineFilled squares t p

/-- The number of occupied (non-null) cells of a snapshot. -/
def countOccupied (b : Board) : Nat :=
  b.countP fun c => c.isSome

/-- Structural well-formedness of a `Game` state: history is non-empty,
the pointer is inside it, and every snapshot has the nine cells of a 3×3
board.  (That each cell is null, `'X'` or `'O'` is enforced by the `Cell`
type of the embedding.) -/
def wfState (s : GameState) : Prop :=
  s.history ≠ [] ∧ s.stepNumber < s.history.length ∧
    ∀ b ∈ s.history, b.length = 9

/-- The turn flag agrees with the pointer's parity. -/
def turnOk (s : GameState) : Prop :=
  s.xIsNext = true ↔ s.stepNumber % 2 = 0

/-- The history growth invariant: snapshot 0 is the empty board and each
later snapshot has exactly one more occupied cell than its predecessor. -/
def histOk (s : GameState) : Prop :=
  s.history.getD 0 [] = List.replicate 9 none ∧
  ∀ k, k + 1 < s.history.length →
    countOccupied (s.history.getD (k + 1) []) =
      countOccupied (s.history.getD k []) + 1

/-- The conjunction of all state invariants. -/
def Inv (s : GameState) : Prop :=
  wfState s ∧ turnOk s ∧ histOk s

/-- Run a sequence of cell clicks on the history-bearing variant. -/
def runGame (moves : List Nat) : GameState :=
  moves.foldl handleClick initialState

/-- Run a sequence of cell clicks on the simple variant. -/
def runBoard (moves : List Nat) : BoardState :=
  moves.foldl BoardState.handleClick initialBoardState

/-- The simulation relation between the two variants: the pointer sits at
the end of the history, the current snapshot equals the simple variant's
squares, and the turn flags agree. -/
def SimRel (s : GameState) (b : BoardState) : Prop :=
  s.stepNumber + 1 = s.history.length ∧
  s.history.getD s.stepNumber [] = b.squares ∧
  s.xIsNext = b.xIsNext

/-! ### The win detector -/

theorem checkLine_eq_some (b : Board) (t : Nat × Nat × Nat) (p : Player) :
    checkLine b t = some p ↔ lineFilled b t p := by
  unfold checkLine lineFilled
  by_cases h : (b.getD t.1 none).isSome ∧
      b.getD t.1 none = b.getD t.2.1 none ∧ b.getD t.1 none = b.getD t.2.2 none
  · rw [if_pos h]
    constructor
    · intro h1
      exact ⟨h1, h.2.1 ▸ h1, h.2.2 ▸ h1⟩
    · rintro ⟨h1, -, -⟩
      exact h1
  · rw [if_neg h]
    constructor
    · intro h1
      cases h1
    · rintro ⟨h1, h2, h3⟩
      refine absurd ⟨?_, ?_, ?_⟩ h
      · rw [h1]
        rfl
      · rw [h1, h2]
      · rw [h1, h3]

theorem checkLine_eq_none (b : Board) (t : Nat × Nat × Nat) :
    checkLine b t = none ↔ ¬ lineComplete b t := by
  rw [lineComplete]
  constructor
  · rintro h ⟨p, hp⟩
    rw [(checkLine_eq_some b t p).mpr hp] at h
    cases h
  · intro h
    cases hc : checkLine b t with
    | none => rfl
    | some p => exact absurd ⟨p, (checkLine_eq_some b t p).mp hc⟩ h

theorem calculateWinnerAux_eq_none (b : Board) (ts : List (Nat × Nat × Nat)) :
    calculateWinnerAux b ts = none ↔ ∀ t ∈ ts, checkLine b t = none := by
  induction ts with
  | nil => simp [calculateWinnerAux]
  | cons t rest ih =>
    unfold calculateWinnerAux
    cases hc : checkLine b t with
    | some p => simp [hc]
    | none => simp [hc, ih]

theorem calculateWinnerAux_eq_some (b : Board) (ts : List (Nat × Nat × Nat))
    (p : Player) :
    calculateWinnerAux b ts = some p ↔
      ∃ pre t post, ts = pre ++ t :: post ∧ checkLine b t = some p ∧
        ∀ t' ∈ pre, checkLine b t' = none := by
  induction ts with
  | nil =>
    simp only [calculateWinnerAux]
    constructor
    · intro h
      cases h
    · rintro ⟨pre, t, post, heq, -, -⟩
      exact absurd heq (by simp)
  | cons u rest ih =>
    unfold calculateWinnerAux
    cases hc : checkLine b u with
    | some q =>
      constructor
      · intro h
        injection h with h
        subst h
        exact ⟨[], u, rest, rfl, hc, by simp⟩
      · rintro ⟨pre, t, post, heq, ht, hpre⟩
        cases pre with
        | nil =>
          simp only [List.nil_append, List.cons.injEq] at heq
          rw [← heq.1, hc] at ht
          exact ht
        | cons v pre' =>
          simp only [List.cons_append, List.cons.injEq] at heq
          have hv : checkLine b v = none := hpre v (by simp)
          rw [← heq.1, hc] at hv
          cases hv
    | none =>
      rw [ih]
      constructor
      · rintro ⟨pre, t, post, heq, ht, hpre⟩
        refine ⟨u :: pre, t, post, by rw [List.cons_append, heq], ht, ?_⟩
        intro t' ht'
        rcases List.mem_cons.mp ht' with h | h
        · rw [h]
          exact hc
        · exact hpre t' h
      · rintro ⟨pre, t, post, heq, ht, hpre⟩
        cases pre with
        | nil =>
          simp only [List.nil_append, List.cons.injEq] at heq
          rw [← heq.1, hc] at ht
          cases ht
        | cons v pre' =>
          simp only [List.cons_append, List.cons.injEq] at heq
          refine ⟨pre', t, post, heq.2, ht, ?_⟩
          intro t' h
          exact hpre t' (by simp [h])

/-- Claim C1: `calculateWinner` scans the eight triples in the fixed order
`[0,1,2],[3,4,5],[6,7,8],[0,3,6],[1,4,7],[2,5,8],[0,4,8],[2,4,6]` and
returns the common mark of the first triple whose three cells are equal
and non-empty; it returns `none` exactly when no triple is complete, and
when several triples are complete the earliest in the enumeration decides
the result. -/
theorem calculateWinner_first_match (b : Board) :
    lines = [(0, 1, 2), (3, 4, 5), (6, 7, 8), (0, 3, 6), (1, 4, 7),
             (2, 5, 8), (0, 4, 8), (2, 4, 6)] ∧
    (calculateWinner b = none ↔ ∀ t ∈ lines, ¬ lineComplete b t) ∧
    ∀ p : Player, calculateWinner b = some p ↔
      ∃ pre t post, lines = pre ++ t :: post ∧ lineFilled b t p ∧
        ∀ t' ∈ pre, ¬ lineComplete b t' := by
  refine ⟨rfl, ?_, ?_⟩
  · rw [calculateWinner, calculateWinnerAux_eq_none]
    simp only [checkLine_eq_none]
  · intro p
    rw [calculateWinner, calculateWinnerAux_eq_some]
    simp only [checkLine_eq_some, checkLine_eq_none]

/-! ### The click transition -/

theorem current_eq (l : List Board) (p : Nat) (hp : p < l.length) :
    ((l.take (p + 1)).getLast?).getD [] = l.getD p [] := by
  have hlen : (l.take (p + 1)).length = p + 1 := by
    rw [List.length_take]
    omega
  rw [List.getLast?_eq_getElem? (l.take (p + 1)), hlen]
  simp only [Nat.add_sub_cancel]
  rw [List.getElem?_take]
  simp [List.getD_eq_getElem?_getD]

theorem handleClick_noop (s : GameState) (i : Nat)
    (hp : s.stepNumber < s.history.length)
    (h : ((calculateWinner (s.history.getD s.stepNumber [])).isSome ||
          ((s.history.getD s.stepNumber []).getD i none).isSome) = true) :
    handleClick s i = s := by
  simp only [handleClick]
  rw [current_eq s.history s.stepNumber hp, if_pos h]

theorem handleClick_eq_of_valid (s : GameState) (i : Nat)
    (hp : s.stepNumber < s.history.length)
    (hwin : calculateWinner (s.history.getD s.stepNumber []) = none)
    (hcell : (s.history.getD s.stepNumber []).getD i none = none) :
    handleClick s i =
      { history := s.history.take (s.stepNumber + 1) ++
          [(s.history.getD s.stepNumber []).set i (mark s.xIsNext)],
        stepNumber := s.stepNumber + 1,
        xIsNext := !s.xIsNext } := by
  simp only [handleClick]
  rw [current_eq s.history s.stepNumber hp]
  have hcond : ¬(((calculateWinner (s.history.getD s.stepNumber [])).isSome ||
      ((s.history.getD s.stepNumber []).getD i none).isSome) = true) := by
    rw [hwin, hcell]
    simp
  rw [if_neg hcond]
  have hlen : (s.history.take (s.stepNumber + 1)).length = s.stepNumber + 1 := by
    rw [List.length_take]
    omega
  rw [hlen]

/-- Claim C2: when the current snapshot already has a winner or the
clicked cell is occupied, `handleClick` is a silent no-op: the whole state
(history, pointer and turn flag) is returned unchanged, and since the
transition is a total function no error is raised. -/
theorem handleClick_rejected (s : GameState) (i : Nat) (hi : i ≤ 8)
    (hp : s.stepNumber < s.history.length)
    (h : (calculateWinner (s.history.getD s.stepNumber [])).isSome = true ∨
         ((s.history.getD s.stepNumber []).getD i none).isSome = true) :
    handleClick s i = s :=
  handleClick_noop s i hp (by rw [Bool.or_eq_true]; exact h)

theorem handleClick_rejected_witness :
    handleClick (handleClick initialState 0) 0 = handleClick initialState 0 :=
  handleClick_rejected (handleClick initialState 0) 0 (by decide) (by decide)
    (Or.inr (by decide))

/-- Claim C3: a valid click (no winner on the current snapshot, clicked
cell empty) produces exactly the state whose history is the old history
truncated to `stepNumber + 1` entries with the updated clone of the
current snapshot appended, whose pointer advanced by one, and whose turn
flag flipped. -/
theorem handleClick_success (s : GameState) (i : Nat) (hi : i ≤ 8)
    (hp : s.stepNumber < s.history.length)
    (hwin : calculateWinner (s.history.getD s.stepNumber []) = none)
    (hcell : (s.history.getD s.stepNumber []).getD i none = none) :
    handleClick s i =
      { history := s.history.take (s.stepNumber + 1) ++
          [(s.history.getD s.stepNumber []).set i (mark s.xIsNext)],
        stepNumber := s.stepNumber + 1,
        xIsNext := !s.xIsNext } :=
  handleClick_eq_of_valid s i hp hwin hcell

theorem handleClick_success_witness :
    handleClick initialState 0 =
      { history := initialState.history.take (initialState.stepNumber + 1) ++
          [(initialState.history.getD initialState.stepNumber []).set 0
            (mark initialState.xIsNext)],
        stepNumber := initialState.stepNumber + 1,
        xIsNext := !initialState.xIsNext } :=
  handleClick_success initialState 0 (by decide) (by decide) (by decide) (by decide)

/-- Claim C4: jumping to step `k` and then making a valid move leaves a
history of length exactly `k + 2`, namely the first `k + 1` old snapshots
followed by the one new snapshot — every history entry that sat beyond
index `k` before the jump has been discarded. -/
theorem jumpTo_branch (s : GameState) (k i : Nat) (hk : k < s.history.length)
    (hi : i ≤ 8)
    (hwin : calculateWinner (s.history.getD k []) = none)
    (hcell : (s.history.getD k []).getD i none = none) :
    (handleClick (jumpTo s k) i).history.length = k + 2 ∧
    (handleClick (jumpTo s k) i).history =
      s.history.take (k + 1) ++
        [(s.history.getD k []).set i (mark (k % 2 == 0))] := by
  have h1 := handleClick_eq_of_valid (jumpTo s k) i hk hwin hcell
  rw [h1]
  refine ⟨?_, rfl⟩
  simp only [jumpTo, List.length_append, List.length_take, List.length_cons,
    List.length_nil]
  omega

theorem jumpTo_branch_witness :
    (handleClick (jumpTo (runGame [0, 1, 2]) 1) 4).history.length = 1 + 2 ∧
    (handleClick (jumpTo (runGame [0, 1, 2]) 1) 4).history =
      (runGame [0, 1, 2]).history.take (1 + 1) ++
        [((runGame [0, 1, 2]).history.getD 1 []).set 4 (mark (1 % 2 == 0))] :=
  jumpTo_branch (runGame [0, 1, 2]) 1 4 (by decide) (by decide) (by decide)
    (by decide)

/-- Claim C7: `jumpTo` sets the pointer to the requested step and does not
touch the history list at all. -/
theorem jumpTo_frame (s : GameState) (step : Nat) (h : step < s.history.length) :
    (jumpTo s step).stepNumber = step ∧ (jumpTo s step).history = s.history :=
  ⟨rfl, rfl⟩

theorem jumpTo_frame_witness :
    (jumpTo initialState 0).stepNumber = 0 ∧
    (jumpTo initialState 0).history = initialState.history :=
  jumpTo_frame initialState 0 (by decide)

/-- Claim C8: finished games absorb: if the current snapshot has a winning
line, or all of its nine cells are occupied, then every click in `0..8` is
rejected and the state is unchanged — no transition extends a finished
game. -/
theorem finished_absorbing (s : GameState) (i : Nat) (hi : i ≤ 8)
    (hp : s.stepNumber < s.history.length)
    (hlen : (s.history.getD s.stepNumber []).length = 9)
    (h : (calculateWinner (s.history.getD s.stepNumber [])).isSome = true ∨
         ∀ c ∈ s.history.getD s.stepNumber [], c.isSome = true) :
    handleClick s i = s := by
  apply handleClick_noop s i hp
  rw [Bool.or_eq_true]
  rcases h with h | h
  · exact Or.inl h
  · right
    have hi9 : i < (s.history.getD s.stepNumber []).length := by omega
    rw [List.getD_eq_getElem?_getD, List.getElem?_eq_getElem hi9]
    exact h _ (List.getElem_mem hi9)

theorem finished_absorbing_witness :
    handleClick (runGame [0, 1, 2, 4, 3, 5, 7, 6, 8]) 0 =
      runGame [0, 1, 2, 4, 3, 5, 7, 6, 8] :=
  finished_absorbing (runGame [0, 1, 2, 4, 3, 5, 7, 6, 8]) 0 (by decide)
    (by decide) (by decide) (Or.inr (by decide))

/-! ### Reachable-state invariants -/

theorem current_mem (l : List Board) (p : Nat) (hp : p < l.length) :
    l.getD p [] ∈ l := by
  rw [List.getD_eq_getElem?_getD, List.getElem?_eq_getElem hp]
  exact List.getElem_mem hp

theorem countOccupied_set (b : Board) (i : Nat) (m : Player)
    (hi : i < b.length) (hb : b.getD i none = none) :
    countOccupied (b.set i (some m)) = countOccupied b + 1 := by
  induction b generalizing i with
  | nil => simp at hi
  | cons c rest ih =>
    cases i with
    | zero =>
      have hc : c = none := by simpa [List.getD_cons_zero] using hb
      subst hc
      simp [countOccupied, List.countP_cons]
    | succ j =>
      have hj : j < rest.length := by simpa using hi
      have hb' : rest.getD j none = none := by
        simpa [List.getD_cons_succ] using hb
      have := ih j hj hb'
      simp only [List.set_cons_succ, countOccupied, List.countP_cons] at this ⊢
      omega

theorem getD_take_append (l : List Board) (nb : Board) (p k : Nat)
    (hp : p < l.length) (hk : k ≤ p) :
    (l.take (p + 1) ++ [nb]).getD k [] = l.getD k [] := by
  have hkl : k < (l.take (p + 1)).length := by
    rw [List.length_take]
    omega
  rw [List.getD_eq_getElem?_getD, List.getD_eq_getElem?_getD,
    List.getElem?_append, if_pos hkl, List.getElem?_take, if_pos (by omega)]

theorem getD_append_last (l : List Board) (nb : Board) (p : Nat)
    (hp : p < l.length) :
    (l.take (p + 1) ++ [nb]).getD (p + 1) [] = nb := by
  have hlen : (l.take (p + 1)).length = p + 1 := by
    rw [List.length_take]
    omega
  rw [List.getD_eq_getElem?_getD, List.getElem?_append, hlen]
  simp

theorem inv_initialState : Inv initialState := by
  refine ⟨⟨by simp [initialState], by simp [initialState], ?_⟩, ?_, rfl, ?_⟩
  · intro b hb
    simp only [initialState, List.mem_singleton] at hb
    simp [hb]
  · simp [turnOk, initialState]
  · intro k hk
    simp [initialState] at hk

theorem inv_handleClick (s : GameState) (i : Nat) (hi : i ≤ 8) (hs : Inv s) :
    Inv (handleClick s i) := by
  obtain ⟨⟨hne, hp, hlen9⟩, hturn, h0, hinc⟩ := hs
  by_cases hcond : ((calculateWinner (s.history.getD s.stepNumber [])).isSome ||
      ((s.history.getD s.stepNumber []).getD i none).isSome) = true
  · rw [handleClick_noop s i hp hcond]
    exact ⟨⟨hne, hp, hlen9⟩, hturn, h0, hinc⟩
  · rw [Bool.or_eq_true, not_or] at hcond
    obtain ⟨hw, hc⟩ := hcond
    have hwin : calculateWinner (s.history.getD s.stepNumber []) = none :=
      Option.not_isSome_iff_eq_none.mp hw
    have hcell : (s.history.getD s.stepNumber []).getD i none = none :=
      Option.not_isSome_iff_eq_none.mp hc
    rw [handleClick_eq_of_valid s i hp hwin hcell]
    have hcur9 : (s.history.getD s.stepNumber []).length = 9 :=
      hlen9 _ (current_mem s.history s.stepNumber hp)
    have htl : (s.history.take (s.stepNumber + 1)).length = s.stepNumber + 1 := by
      rw [List.length_take]
      omega
    refine ⟨⟨by simp, ?_, ?_⟩, ?_, ?_, ?_⟩
    · simp only [List.length_append, htl, List.length_cons, List.length_nil]
      omega
    · intro b hb
      rcases List.mem_append.mp hb with hb | hb
      · exact hlen9 b (List.mem_of_mem_take hb)
      · rw [List.mem_singleton.mp hb, List.length_set]
        exact hcur9
    · cases hx : s.xIsNext <;>
        simp only [turnOk, hx] at hturn ⊢ <;> simp at hturn ⊢ <;> omega
    · rw [getD_take_append s.history _ s.stepNumber 0 hp (by omega)]
      exact h0
    · intro k hk
      simp only [List.length_append, htl, List.length_cons, List.length_nil] at hk
      rcases Nat.lt_or_ge (k + 1) (s.stepNumber + 1) with hlt | hge
      · rw [getD_take_append s.history _ s.stepNumber (k + 1) hp (by omega),
          getD_take_append s.history _ s.stepNumber k hp (by omega)]
        exact hinc k (by omega)
      · have hkp : k = s.stepNumber := by omega
        subst hkp
        rw [getD_append_last s.history _ s.stepNumber hp,
          getD_take_append s.history _ s.stepNumber s.stepNumber hp (by omega)]
        simp only [mark]
        exact countOccupied_set _ i _ (by omega) hcell

theorem inv_jumpTo (s : GameState) (k : Nat) (hk : k < s.history.length)
    (hs : Inv s) : Inv (jumpTo s k) := by
  obtain ⟨⟨hne, hp, hlen9⟩, hturn, hhist⟩ := hs
  refine ⟨⟨hne, hk, hlen9⟩, ?_, hhist⟩
  simp [turnOk, jumpTo]

theorem inv_step (s s' : GameState) (h : Step s s') (hs : Inv s) : Inv s' := by
  cases h with
  | click i hi => exact inv_handleClick s i hi hs
  | jump k hk => exact inv_jumpTo s k hk hs

theorem reachable_inv (s : GameState) (h : Reachable s) : Inv s := by
  induction h with
  | refl => exact inv_initialState
  | tail h1 h2 ih => exact inv_step _ _ h2 ih

/-- Claim C5: in every reachable state the turn flag agrees with the
parity of the step pointer: the active player is X exactly when the
pointer is even.  (Initiality and preservation by clicks and jumps are the
content of the reachability induction.) -/
theorem reachable_turn_parity (s : GameState) (h : Reachable s) :
    s.xIsNext = true ↔ s.stepNumber % 2 = 0 :=
  (reachable_inv s h).2.1

theorem reachable_turn_parity_witness :
    (handleClick initialState 4).xIsNext = true ↔
      (handleClick initialState 4).stepNumber % 2 = 0 :=
  reachable_turn_parity (handleClick initialState 4)
    (Relation.ReflTransGen.single (Step.click initialState 4 (by decide)))

/-- Claim C6: in every reachable state, snapshot 0 of the history is the
all-empty board and each snapshot has exactly one more occupied cell than
its predecessor. -/
theorem reachable_history_counts (s : GameState) (h : Reachable s) :
    s.history.getD 0 [] = List.replicate 9 none ∧
    ∀ k, k + 1 < s.history.length →
      countOccupied (s.history.getD (k + 1) []) =
        countOccupied (s.history.getD k []) + 1 :=
  (reachable_inv s h).2.2

theorem reachable_history_counts_witness :
    (handleClick initialState 0).history.getD 0 [] = List.replicate 9 none ∧
    countOccupied ((handleClick initialState 0).history.getD 1 []) =
      countOccupied ((handleClick initialState 0).history.getD 0 []) + 1 :=
  ⟨(reachable_history_counts (handleClick initialState 0)
      (Relation.ReflTransGen.single (Step.click initialState 0 (by decide)))).1,
   (reachable_history_counts (handleClick initialState 0)
      (Relation.ReflTransGen.single (Step.click initialState 0 (by decide)))).2
      0 (by decide)⟩

/-- Claim C10: every reachable state is well formed: the history is
non-empty, the pointer stays inside it, and every snapshot has exactly
nine cells (each cell being empty, X or O by the `Cell` type). -/
theorem reachable_wellFormed (s : GameState) (h : Reachable s) :
    s.history ≠ [] ∧ s.stepNumber < s.history.length ∧
      ∀ b ∈ s.history, b.length = 9 :=
  (reachable_inv s h).1

theorem reachable_wellFormed_witness :
    (jumpTo (handleClick initialState 8) 0).history ≠ [] ∧
    (jumpTo (handleClick initialState 8) 0).stepNumber <
      (jumpTo (handleClick initialState 8) 0).history.length ∧
    ((jumpTo (handleClick initialState 8) 0).history.getD 0 []).length = 9 := by
  have hr : Reachable (jumpTo (handleClick initialState 8) 0) :=
    Relation.ReflTransGen.tail
      (Relation.ReflTransGen.single (Step.click initialState 8 (by decide)))
      (Step.jump (handleClick initialState 8) 0 (by decide))
  have h := reachable_wellFormed (jumpTo (handleClick initialState 8) 0) hr
  exact ⟨h.1, h.2.1, h.2.2 _ (by decide)⟩

/-! ### Refinement of the simple variant -/

theorem simRel_initial : SimRel initialState initialBoardState :=
  ⟨rfl, rfl, rfl⟩

theorem simRel_handleClick (s : GameState) (b : BoardState) (i : Nat)
    (h : SimRel s b) :
    SimRel (handleClick s i) (BoardState.handleClick b i) := by
  obtain ⟨hlen, hsq, hx⟩ := h
  have hp : s.stepNumber < s.history.length := by omega
  by_cases hcond : ((calculateWinner b.squares).isSome ||
      (b.squares.getD i none).isSome) = true
  · rw [handleClick_noop s i hp (by rw [hsq]; exact hcond)]
    have hb : BoardState.handleClick b i = b := by
      simp only [BoardState.handleClick]
      rw [if_pos hcond]
    rw [hb]
    exact ⟨hlen, hsq, hx⟩
  · rw [Bool.or_eq_true, not_or] at hcond
    obtain ⟨hw, hc⟩ := hcond
    have hwin : calculateWinner b.squares = none :=
      Option.not_isSome_iff_eq_none.mp hw
    have hcell : b.squares.getD i none = none :=
      Option.not_isSome_iff_eq_none.mp hc
    rw [handleClick_eq_of_valid s i hp (by rw [hsq]; exact hwin)
      (by rw [hsq]; exact hcell)]
    have hb : BoardState.handleClick b i =
        { squares := b.squares.set i (mark b.xIsNext), xIsNext := !b.xIsNext } := by
      simp only [BoardState.handleClick]
      rw [if_neg (by rw [hwin, hcell]; simp)]
    rw [hb]
    refine ⟨?_, ?_, ?_⟩
    · simp only [List.length_append, List.length_take, List.length_cons,
        List.length_nil]
      omega
    · show (s.history.take (s.stepNumber + 1) ++
          [(s.history.getD s.stepNumber []).set i (mark s.xIsNext)]).getD
            (s.stepNumber + 1) [] = b.squares.set i (mark b.xIsNext)
      rw [getD_append_last s.history _ s.stepNumber hp, hsq, hx]
    · show (!s.xIsNext) = !b.xIsNext
      rw [hx]

theorem simRel_run (moves : List Nat) (s : GameState) (b : BoardState)
    (h : SimRel s b) :
    SimRel (moves.foldl handleClick s) (moves.foldl BoardState.handleClick b) := by
  induction moves generalizing s b with
  | nil => exact h
  | cons m rest ih => exact ih _ _ (simRel_handleClick s b m h)

/-- Claim C9: the history-bearing `Game` variant refines the simple
`Board` variant of `index.js`: after any sequence of clicks (with no
jumps) from the respective initial states, the current snapshot of the
history variant equals the simple variant's squares array, and the turn
flags agree. -/
theorem game_refines_board (moves : List Nat) :
    (runGame moves).history.getD (runGame moves).stepNumber [] =
      (runBoard moves).squares ∧
    (runGame moves).xIsNext = (runBoard moves).xIsNext := by
  have h := simRel_run moves initialState initialBoardState simRel_initial
  exact ⟨h.2.1, h.2.2⟩

end TicTacToe
